import Mathlib

/-!
Verification of `agent_display.py`: the recursive JSON normalizer
(`recursive_json_clean`) and the trace renderer (`visualize_agent_response`
and its helpers), modelled as a shallow embedding.

Python values flowing through the normalizer are plain JSON-like data:
dicts, lists, strings, ints, floats, booleans and `None`.
-/

/-- A Python value as handled by `recursive_json_clean`.  Floats keep the
source lexeme: no claim depends on float arithmetic, only on structure. -/
inductive Value where
  | vstr (s : String)
  | vint (n : Int)
  | vfloat (lexeme : String)
  | vbool (b : Bool)
  | vnull
  | vdict (kvs : List (String × Value))
  | vlist (vs : List Value)

mutual

/-- Structural size of a value; strings weigh their length so that a parsed
value is smaller than the string it was parsed from. -/
def Value.size : Value → Nat
  | .vstr s => s.length + 1
  | .vint _ => 1
  | .vfloat _ => 1
  | .vbool _ => 1
  | .vnull => 1
  | .vdict kvs => 1 + sizeMembers kvs
  | .vlist vs => 1 + sizeList vs

/-- Total size of the values of an association list (keys are not cleaned
by the code, so they carry no weight). -/
def sizeMembers : List (String × Value) → Nat
  | [] => 0
  | (_, v) :: rest => v.size + sizeMembers rest

/-- Total size of a list of values. -/
def sizeList : List Value → Nat
  | [] => 0
  | v :: rest => v.size + sizeList rest

end

theorem Value.size_pos (v : Value) : 1 ≤ v.size := by
  cases v <;> simp [Value.size]

theorem sizeMembers_mem {kv : String × Value} :
    ∀ {kvs : List (String × Value)}, kv ∈ kvs → kv.2.size ≤ sizeMembers kvs := by
  intro kvs
  induction kvs with
  | nil => intro h; cases h
  | cons hd tl ih =>
    intro h
    rcases List.mem_cons.mp h with h | h
    · subst h
      obtain ⟨k, v⟩ := kv
      simp [sizeMembers]
    · have := ih h
      obtain ⟨k, v⟩ := hd
      simp [sizeMembers]
      omega

theorem sizeList_mem {v : Value} :
    ∀ {vs : List Value}, v ∈ vs → v.size ≤ sizeList vs := by
  intro vs
  induction vs with
  | nil => intro h; cases h
  | cons hd tl ih =>
    intro h
    rcases List.mem_cons.mp h with h | h
    · subst h
      simp [sizeList]
    · have := ih h
      simp [sizeList]
      omega

/-! ### Python `str.strip` and the bracket check of `recursive_json_clean` -/

/-- Characters stripped by Python `str.strip()` (the ASCII whitespace set;
Unicode whitespace is not exercised by this repository). -/
def pyIsSpace (c : Char) : Bool :=
  c = ' ' || c = '\t' || c = '\n' || c = '\x0b' || c = '\x0c' || c = '\r'

/-- Python `data.strip()`. -/
def pyStrip (s : String) : String :=
  String.mk (((s.data.dropWhile pyIsSpace).reverse.dropWhile pyIsSpace).reverse)

/-- The guard of `recursive_json_clean`:
`(stripped.startswith("\x7b") and stripped.endswith("\x7d")) or
 (stripped.startswith("[") and stripped.endswith("]"))`.
A one-character `startswith`/`endswith` is exactly a first/last character
test, stated here on the character list so that it computes by reduction. -/
def looksLikeJson (s : String) : Bool :=
  let stripped := (pyStrip s).data
  match stripped.head?, stripped.getLast? with
  | some h, some l => (h = '{' && l = '}') || (h = '[' && l = ']')
  | _, _ => false

/-! ### The JSON scanner (`json.loads`)

A faithful model of Python's strict JSON decoder: whitespace is
`' '  '\t'  '\n'  '\r'`; strings are double quoted with the eight simple
escapes and `\uXXXX` (surrogate pairs combined; Python keeps lone
surrogates, which Lean strings cannot represent, so those map to U+FFFD);
numbers follow the `0|[1-9]\d*` integer grammar with optional fraction and
exponent; `NaN`, `Infinity` and `-Infinity` are accepted as in Python's
default configuration.  Object entries are kept in parse order (a real
Python dict would keep the last duplicate; no claim involves duplicates). -/

def jsonWs (c : Char) : Bool :=
  c = ' ' || c = '\t' || c = '\n' || c = '\r'

def skipWs (cs : List Char) : List Char := cs.dropWhile jsonWs

theorem dropWhile_length_le (p : Char → Bool) :
    ∀ cs : List Char, (cs.dropWhile p).length ≤ cs.length := by
  intro cs
  induction cs with
  | nil => simp
  | cons c rest ih =>
    rw [List.dropWhile_cons]
    split
    · simp only [List.length_cons]
      omega
    · simp

theorem skipWs_le (cs : List Char) : (skipWs cs).length ≤ cs.length :=
  dropWhile_length_le jsonWs cs

def escChar : Char → Option Char
  | '"' => some '"'
  | '\\' => some '\\'
  | '/' => some '/'
  | 'b' => some '\x08'
  | 'f' => some '\x0c'
  | 'n' => some '\n'
  | 'r' => some '\r'
  | 't' => some '\t'
  | _ => none

def hexDigitVal (c : Char) : Option Nat :=
  if '0' ≤ c ∧ c ≤ '9' then some (c.toNat - '0'.toNat)
  else if 'a' ≤ c ∧ c ≤ 'f' then some (c.toNat - 'a'.toNat + 10)
  else if 'A' ≤ c ∧ c ≤ 'F' then some (c.toNat - 'A'.toNat + 10)
  else none

def hex4 (a b c d : Char) : Option Nat := do
  let x ← hexDigitVal a
  let y ← hexDigitVal b
  let z ← hexDigitVal c
  let w ← hexDigitVal d
  pure (((x * 16 + y) * 16 + z) * 16 + w)

/-- Scan a JSON string body (the opening quote already consumed); returns
the decoded characters and the input after the closing quote.  The fuel
argument only bounds the recursion depth (one unit per consumed character)
so that the scanner is structurally recursive and computable by reduction;
`pyJsonLoads` passes more than enough fuel.  After a `\uXXXX` high
surrogate, Python peeks for an immediately following low-surrogate escape
and combines the pair; otherwise the lone surrogate is kept (Lean strings
cannot hold lone surrogates, so they appear as U+FFFD) and scanning
resumes at the following escape. -/
def parseStringBodyF : Nat → List Char → Option (List Char × List Char)
  | 0, _ => none
  | fuel + 1, cs =>
    match cs with
    | [] => none
    | '"' :: rest => some ([], rest)
    | '\\' :: 'u' :: a :: b :: c :: d :: rest =>
      match hex4 a b c d with
      | none => none
      | some n =>
        if 0xD800 ≤ n ∧ n ≤ 0xDBFF then
          match rest with
          | '\\' :: 'u' :: a2 :: b2 :: c2 :: d2 :: rest2 =>
            match hex4 a2 b2 c2 d2 with
            | some m =>
              if 0xDC00 ≤ m ∧ m ≤ 0xDFFF then
                (parseStringBodyF fuel rest2).map
                  (fun p => (Char.ofNat (0x10000 + (n - 0xD800) * 0x400 + (m - 0xDC00)) :: p.1, p.2))
              else (parseStringBodyF fuel rest).map (fun p => ('�' :: p.1, p.2))
            | none => (parseStringBodyF fuel rest).map (fun p => ('�' :: p.1, p.2))
          | _ => (parseStringBodyF fuel rest).map (fun p => ('�' :: p.1, p.2))
        else if 0xDC00 ≤ n ∧ n ≤ 0xDFFF then
          (parseStringBodyF fuel rest).map (fun p => ('�' :: p.1, p.2))
        else
          (parseStringBodyF fuel rest).map (fun p => (Char.ofNat n :: p.1, p.2))
    | '\\' :: e :: rest =>
      match escChar e with
      | some c => (parseStringBodyF fuel rest).map (fun p => (c :: p.1, p.2))
      | none => none
    | c :: rest =>
      if c.toNat < 0x20 then none
      else (parseStringBodyF fuel rest).map (fun p => (c :: p.1, p.2))

def digitsToNat (ds : List Char) : Nat :=
  ds.foldl (fun n c => 10 * n + (c.toNat - '0'.toNat)) 0

/-- The integer part of Python's `NUMBER_RE`: a digit run, rejecting a
zero-led multi-digit run (which can never be continued into valid JSON,
so rejecting it here agrees with `json.loads` even though the regex would
match just the `0`). -/
def scanIntPart (cs : List Char) : Option (List Char × List Char) :=
  let ds := cs.takeWhile Char.isDigit
  if ds.isEmpty then none
  else if 1 < ds.length ∧ ds.headD '0' = '0' then none
  else some (ds, cs.dropWhile Char.isDigit)

/-- The optional fraction group `\.\d+`; it only attaches when complete. -/
def scanFrac (cs : List Char) : Option (List Char) :=
  match cs with
  | '.' :: r =>
    if (r.takeWhile Char.isDigit).isEmpty then none
    else some (r.dropWhile Char.isDigit)
  | _ => none

/-- The optional exponent group `[eE][-+]?\d+`; only attaches complete. -/
def scanExp (cs : List Char) : Option (List Char) :=
  match cs with
  | e :: r =>
    if e = 'e' ∨ e = 'E' then
      let r' := match r with
        | '+' :: rr => rr
        | '-' :: rr => rr
        | _ => r
      if (r'.takeWhile Char.isDigit).isEmpty then none
      else some (r'.dropWhile Char.isDigit)
    else none
  | [] => none

/-- The body of the number scanner: `full` is the whole input at the
number's start (used for the float lexeme), `cs1` the input after the
optional minus.  An integer literal becomes `vint`; any fraction or
exponent makes a float, kept as its source lexeme. -/
def parseNumberCore (full : List Char) (negp : Bool) (cs1 : List Char) :
    Option (Value × List Char) :=
  match scanIntPart cs1 with
  | none => none
  | some (ip, r1) =>
    match scanFrac r1 with
    | none =>
      match scanExp r1 with
      | none =>
        let n : Int := Int.ofNat (digitsToNat ip)
        some (.vint (if negp then -n else n), r1)
      | some r3 => some (.vfloat (String.mk (full.take (full.length - r3.length))), r3)
    | some r2 =>
      match scanExp r2 with
      | none => some (.vfloat (String.mk (full.take (full.length - r2.length))), r2)
      | some r3 => some (.vfloat (String.mk (full.take (full.length - r3.length))), r3)

/-- Scan a JSON number at the head of the input, following Python's
`NUMBER_RE`: an optional minus, the integer part, then optional fraction
and exponent groups. -/
def parseNumber (cs : List Char) : Option (Value × List Char) :=
  match cs with
  | '-' :: cs1 => parseNumberCore cs true cs1
  | _ => parseNumberCore cs false cs

mutual

/-- One value of Python's strict JSON scanner, positioned directly at the
value (callers skip whitespace).  Literals are matched by slicing as in
CPython (`s[idx:idx + 4] == 'null'` and so on).  The fuel only bounds
recursion depth; `pyJsonLoads` supplies more than enough. -/
def parseValueF : Nat → List Char → Option (Value × List Char)
  | 0, _ => none
  | fuel + 1, cs =>
    match cs with
    | '"' :: rest =>
      (parseStringBodyF (rest.length + 1) rest).map
        (fun p => (.vstr (String.mk p.1), p.2))
    | '{' :: rest =>
      (match skipWs rest with
       | '}' :: r => some (.vdict [], r)
       | cs1 => (parseMembersF fuel cs1).map (fun p => (.vdict p.1, p.2)))
    | '[' :: rest =>
      (match skipWs rest with
       | ']' :: r => some (.vlist [], r)
       | cs1 => (parseElementsF fuel cs1).map (fun p => (.vlist p.1, p.2)))
    | _ =>
      if cs.take 4 = ['n', 'u', 'l', 'l'] then some (.vnull, cs.drop 4)
      else if cs.take 4 = ['t', 'r', 'u', 'e'] then some (.vbool true, cs.drop 4)
      else if cs.take 5 = ['f', 'a', 'l', 's', 'e'] then some (.vbool false, cs.drop 5)
      else if cs.take 3 = ['N', 'a', 'N'] then some (.vfloat "NaN", cs.drop 3)
      else if cs.take 8 = ['I', 'n', 'f', 'i', 'n', 'i', 't', 'y'] then
        some (.vfloat "Infinity", cs.drop 8)
      else if cs.take 9 = ['-', 'I', 'n', 'f', 'i', 'n', 'i', 't', 'y'] then
        some (.vfloat "-Infinity", cs.drop 9)
      else parseNumber cs

/-- Object members, positioned at the opening quote of a key (whitespace
already skipped).  Entries are kept in parse order. -/
def parseMembersF : Nat → List Char → Option (List (String × Value) × List Char)
  | 0, _ => none
  | fuel + 1, cs =>
    match cs with
    | '"' :: rest =>
      match parseStringBodyF (rest.length + 1) rest with
      | none => none
      | some (k, r1) =>
        match skipWs r1 with
        | ':' :: r3 =>
          match parseValueF fuel (skipWs r3) with
          | none => none
          | some (v, r4) =>
            match skipWs r4 with
            | ',' :: r6 =>
              (match parseMembersF fuel (skipWs r6) with
               | some (kvs, r8) => some ((String.mk k, v) :: kvs, r8)
               | none => none)
            | '}' :: r6 => some ([(String.mk k, v)], r6)
            | _ => none
        | _ => none
    | _ => none

/-- Array elements, positioned at a value (whitespace already skipped). -/
def parseElementsF : Nat → List Char → Option (List Value × List Char)
  | 0, _ => none
  | fuel + 1, cs =>
    match parseValueF fuel cs with
    | none => none
    | some (v, r1) =>
      match skipWs r1 with
      | ',' :: r3 =>
        (match parseElementsF fuel (skipWs r3) with
         | some (vs, r4) => some (v :: vs, r4)
         | none => none)
      | ']' :: r3 => some ([v], r3)
      | _ => none

end

/-- `json.loads`: skip leading whitespace, scan one value, require only
whitespace to remain; `none` is any `JSONDecodeError`.  The fuel bounds
recursion depth only: depth never exceeds one per consumed character plus
one per nesting step, far below `2 * length + 8`. -/
def pyJsonLoads (s : String) : Option Value :=
  match parseValueF (2 * s.data.length + 8) (skipWs s.data) with
  | some (v, rest) => if skipWs rest = [] then some v else none
  | none => none

theorem map_cons_extract {o : Option (List Char × List Char)} {ch : Char}
    {content rest : List Char}
    (h : o.map (fun p => (ch :: p.1, p.2)) = some (content, rest)) :
    ∃ c1 r1, o = some (c1, r1) ∧ content = ch :: c1 ∧ rest = r1 := by
  rcases o with _ | ⟨c1, r1⟩ <;> simp_all

/-- Scanning a string body consumes strictly more characters than the
decoded content holds: every decoded character comes from at least one
source character and the closing quote is consumed on top. -/
theorem parseStringBodyF_size :
    ∀ (fuel : Nat) (cs content rest : List Char),
      parseStringBodyF fuel cs = some (content, rest) →
      content.length + rest.length < cs.length := by
  intro fuel
  induction fuel with
  | zero => intro cs content rest h; simp [parseStringBodyF] at h
  | succ n ih =>
    intro cs content rest h
    simp only [parseStringBodyF] at h
    split at h
    · exact absurd h (by simp)
    · simp only [Option.some.injEq, Prod.mk.injEq] at h
      obtain ⟨h1, h2⟩ := h
      subst h1
      subst h2
      simp
    · split at h
      · exact absurd h (by simp)
      · split at h
        · split at h
          · split at h
            · split at h
              · obtain ⟨c1, r1, hrec, hc, hr⟩ := map_cons_extract h
                subst hc
                subst hr
                have := ih _ _ _ hrec
                simp only [List.length_cons]
                omega
              · obtain ⟨c1, r1, hrec, hc, hr⟩ := map_cons_extract h
                subst hc
                subst hr
                have := ih _ _ _ hrec
                simp only [List.length_cons] at this ⊢
                omega
            · obtain ⟨c1, r1, hrec, hc, hr⟩ := map_cons_extract h
              subst hc
              subst hr
              have := ih _ _ _ hrec
              simp only [List.length_cons] at this ⊢
              omega
          · obtain ⟨c1, r1, hrec, hc, hr⟩ := map_cons_extract h
            subst hc
            subst hr
            have := ih _ _ _ hrec
            simp only [List.length_cons] at this ⊢
            omega
        · split at h
          · obtain ⟨c1, r1, hrec, hc, hr⟩ := map_cons_extract h
            subst hc
            subst hr
            have := ih _ _ _ hrec
            simp only [List.length_cons] at this ⊢
            omega
          · obtain ⟨c1, r1, hrec, hc, hr⟩ := map_cons_extract h
            subst hc
            subst hr
            have := ih _ _ _ hrec
            simp only [List.length_cons] at this ⊢
            omega
    · split at h
      · obtain ⟨c1, r1, hrec, hc, hr⟩ := map_cons_extract h
        subst hc
        subst hr
        have := ih _ _ _ hrec
        simp only [List.length_cons] at this ⊢
        omega
      · exact absurd h (by simp)
    · split at h
      · exact absurd h (by simp)
      · obtain ⟨c1, r1, hrec, hc, hr⟩ := map_cons_extract h
        subst hc
        subst hr
        have := ih _ _ _ hrec
        simp only [List.length_cons] at this ⊢
        omega

theorem takeWhile_dropWhile_length (p : Char → Bool) (cs : List Char) :
    (cs.takeWhile p).length + (cs.dropWhile p).length = cs.length := by
  conv_rhs => rw [← @List.takeWhile_append_dropWhile _ p cs]
  rw [List.length_append]

theorem scanIntPart_size {cs ip r1 : List Char}
    (h : scanIntPart cs = some (ip, r1)) : r1.length < cs.length := by
  simp only [scanIntPart] at h
  split at h
  · exact absurd h (by simp)
  · split at h
    · exact absurd h (by simp)
    · simp only [Option.some.injEq, Prod.mk.injEq] at h
      obtain ⟨h1, h2⟩ := h
      subst h2
      have htd := takeWhile_dropWhile_length Char.isDigit cs
      rename_i hne _
      have : (cs.takeWhile Char.isDigit).length ≠ 0 := by
        simpa [List.isEmpty_iff_length_eq_zero] using hne
      omega

theorem scanFrac_size {cs r : List Char} (h : scanFrac cs = some r) :
    r.length < cs.length := by
  simp only [scanFrac] at h
  split at h
  · split at h
    · exact absurd h (by simp)
    · simp only [Option.some.injEq] at h
      subst h
      rename_i r0 _
      have := dropWhile_length_le Char.isDigit r0
      simp only [List.length_cons]
      omega
  · exact absurd h (by simp)

theorem scanExp_size {cs r : List Char} (h : scanExp cs = some r) :
    r.length < cs.length := by
  simp only [scanExp] at h
  split at h
  · split at h
    · split at h
      · exact absurd h (by simp)
      · simp only [Option.some.injEq] at h
        subst h
        rename_i e r0 _ _
        simp only [List.length_cons]
        split
        · rename_i rr _
          have := dropWhile_length_le Char.isDigit rr
          simp_all
          omega
        · rename_i rr _
          have := dropWhile_length_le Char.isDigit rr
          simp_all
          omega
        · have := dropWhile_length_le Char.isDigit r0
          omega
    · exact absurd h (by simp)
  · exact absurd h (by simp)

theorem parseNumberCore_size {full : List Char} {negp : Bool} {cs1 : List Char}
    {v : Value} {rest : List Char} (hlen : cs1.length ≤ full.length)
    (h : parseNumberCore full negp cs1 = some (v, rest)) :
    v.size + rest.length ≤ full.length := by
  simp only [parseNumberCore] at h
  split at h
  · exact absurd h (by simp)
  · rename_i ip r1 hip
    have h1 := scanIntPart_size hip
    split at h
    · split at h
      · simp only [Option.some.injEq, Prod.mk.injEq] at h
        obtain ⟨hv, hr⟩ := h
        subst hv
        subst hr
        simp only [Value.size]
        omega
      · rename_i r3 hex
        have h3 := scanExp_size hex
        simp only [Option.some.injEq, Prod.mk.injEq] at h
        obtain ⟨hv, hr⟩ := h
        subst hv
        subst hr
        simp only [Value.size]
        omega
    · rename_i r2 hfr
      have h3 := scanFrac_size hfr
      split at h
      · simp only [Option.some.injEq, Prod.mk.injEq] at h
        obtain ⟨hv, hr⟩ := h
        subst hv
        subst hr
        simp only [Value.size]
        omega
      · rename_i r3 hex
        have h4 := scanExp_size hex
        simp only [Option.some.injEq, Prod.mk.injEq] at h
        obtain ⟨hv, hr⟩ := h
        subst hv
        subst hr
        simp only [Value.size]
        omega

theorem parseNumber_size {cs : List Char} {v : Value} {rest : List Char}
    (h : parseNumber cs = some (v, rest)) : v.size + rest.length ≤ cs.length := by
  simp only [parseNumber] at h
  split at h
  · rename_i cs1
    exact parseNumberCore_size (by simp) h
  · exact parseNumberCore_size (le_refl _) h

set_option maxHeartbeats 1600000 in
theorem parseF_size : ∀ fuel : Nat,
    (∀ cs v rest, parseValueF fuel cs = some (v, rest) →
      v.size + rest.length ≤ cs.length) ∧
    (∀ cs kvs rest, parseMembersF fuel cs = some (kvs, rest) →
      sizeMembers kvs + rest.length ≤ cs.length) ∧
    (∀ cs vs rest, parseElementsF fuel cs = some (vs, rest) →
      sizeList vs + rest.length ≤ cs.length) := by
  intro fuel
  induction fuel with
  | zero =>
    refine ⟨?_, ?_, ?_⟩ <;> intro cs x rest h
    · exact Option.noConfusion ((show parseValueF 0 cs = none from rfl) ▸ h)
    · exact Option.noConfusion ((show parseMembersF 0 cs = none from rfl) ▸ h)
    · exact Option.noConfusion ((show parseElementsF 0 cs = none from rfl) ▸ h)
  | succ n ih =>
    obtain ⟨ihv, ihm, ihe⟩ := ih
    refine ⟨?_, ?_, ?_⟩
    · intro cs v rest h
      simp only [parseValueF] at h
      split at h
      · -- string
        rename_i rest1
        rcases Option.map_eq_some'.mp h with ⟨⟨content, r⟩, hrec, heq⟩
        simp only [Prod.mk.injEq] at heq
        obtain ⟨hv, hr⟩ := heq
        subst hv
        subst hr
        have hb := parseStringBodyF_size _ _ _ _ hrec
        simp only [Value.size, String.length, List.length_cons]
        omega
      · -- object
        rename_i rest1
        split at h
        · rename_i r heq
          have hs := skipWs_le rest1
          rw [heq] at hs
          simp only [List.length_cons] at hs
          simp only [Option.some.injEq, Prod.mk.injEq] at h
          obtain ⟨hv, hr⟩ := h
          subst hv
          subst hr
          simp only [Value.size, sizeMembers, List.length_cons]
          omega
        · rcases Option.map_eq_some'.mp h with ⟨⟨kvs, r⟩, hrec, heq⟩
          simp only [Prod.mk.injEq] at heq
          obtain ⟨hv, hr⟩ := heq
          subst hv
          subst hr
          have hb := ihm _ _ _ hrec
          have hs := skipWs_le rest1
          simp only [Value.size, List.length_cons]
          omega
      · -- array
        rename_i rest1
        split at h
        · rename_i r heq
          have hs := skipWs_le rest1
          rw [heq] at hs
          simp only [List.length_cons] at hs
          simp only [Option.some.injEq, Prod.mk.injEq] at h
          obtain ⟨hv, hr⟩ := h
          subst hv
          subst hr
          simp only [Value.size, sizeList, List.length_cons]
          omega
        · rcases Option.map_eq_some'.mp h with ⟨⟨vs, r⟩, hrec, heq⟩
          simp only [Prod.mk.injEq] at heq
          obtain ⟨hv, hr⟩ := heq
          subst hv
          subst hr
          have hb := ihe _ _ _ hrec
          have hs := skipWs_le rest1
          simp only [Value.size, List.length_cons]
          omega
      · -- literals and numbers
        split at h
        · rename_i htake
          have hlen : 4 ≤ cs.length := by
            have := congrArg List.length htake
            simp only [List.length_take, List.length_cons, List.length_nil] at this
            omega
          simp only [Option.some.injEq, Prod.mk.injEq] at h
          obtain ⟨hv, hr⟩ := h
          subst hv
          subst hr
          simp only [Value.size, List.length_drop]
          omega
        · split at h
          · rename_i htake
            have hlen : 4 ≤ cs.length := by
              have := congrArg List.length htake
              simp only [List.length_take, List.length_cons, List.length_nil] at this
              omega
            simp only [Option.some.injEq, Prod.mk.injEq] at h
            obtain ⟨hv, hr⟩ := h
            subst hv
            subst hr
            simp only [Value.size, List.length_drop]
            omega
          · split at h
            · rename_i htake
              have hlen : 5 ≤ cs.length := by
                have := congrArg List.length htake
                simp only [List.length_take, List.length_cons, List.length_nil] at this
                omega
              simp only [Option.some.injEq, Prod.mk.injEq] at h
              obtain ⟨hv, hr⟩ := h
              subst hv
              subst hr
              simp only [Value.size, List.length_drop]
              omega
            · split at h
              · rename_i htake
                have hlen : 3 ≤ cs.length := by
                  have := congrArg List.length htake
                  simp only [List.length_take, List.length_cons, List.length_nil] at this
                  omega
                simp only [Option.some.injEq, Prod.mk.injEq] at h
                obtain ⟨hv, hr⟩ := h
                subst hv
                subst hr
                simp only [Value.size, List.length_drop]
                omega
              · split at h
                · rename_i htake
                  have hlen : 8 ≤ cs.length := by
                    have := congrArg List.length htake
                    simp only [List.length_take, List.length_cons, List.length_nil] at this
                    omega
                  simp only [Option.some.injEq, Prod.mk.injEq] at h
                  obtain ⟨hv, hr⟩ := h
                  subst hv
                  subst hr
                  simp only [Value.size, List.length_drop]
                  omega
                · split at h
                  · rename_i htake
                    have hlen : 9 ≤ cs.length := by
                      have := congrArg List.length htake
                      simp only [List.length_take, List.length_cons, List.length_nil] at this
                      omega
                    simp only [Option.some.injEq, Prod.mk.injEq] at h
                    obtain ⟨hv, hr⟩ := h
                    subst hv
                    subst hr
                    simp only [Value.size, List.length_drop]
                    omega
                  · exact parseNumber_size h
    · intro cs kvs rest h
      simp only [parseMembersF] at h
      split at h
      · rename_i rest1
        split at h
        · exact absurd h (by simp)
        · rename_i k r1 hk
          have hkb := parseStringBodyF_size _ _ _ _ hk
          split at h
          · rename_i r3 heq1
            have hs1 := skipWs_le r1
            rw [heq1] at hs1
            simp only [List.length_cons] at hs1
            split at h
            · exact absurd h (by simp)
            · rename_i v r4 hv
              have hvb := ihv _ _ _ hv
              have hs2 := skipWs_le r3
              split at h
              · rename_i r6 heq2
                have hs3 := skipWs_le r4
                rw [heq2] at hs3
                simp only [List.length_cons] at hs3
                split at h
                · rename_i kvs' r8 hm
                  have hmb := ihm _ _ _ hm
                  have hs4 := skipWs_le r6
                  simp only [Option.some.injEq, Prod.mk.injEq] at h
                  obtain ⟨hkv, hr⟩ := h
                  subst hkv
                  subst hr
                  simp only [sizeMembers, List.length_cons]
                  omega
                · exact absurd h (by simp)
              · rename_i r6 heq2
                have hs3 := skipWs_le r4
                rw [heq2] at hs3
                simp only [List.length_cons] at hs3
                simp only [Option.some.injEq, Prod.mk.injEq] at h
                obtain ⟨hkv, hr⟩ := h
                subst hkv
                subst hr
                simp only [sizeMembers, List.length_cons]
                omega
              · exact absurd h (by simp)
          · exact absurd h (by simp)
      · exact absurd h (by simp)
    · intro cs vs rest h
      simp only [parseElementsF] at h
      split at h
      · exact absurd h (by simp)
      · rename_i v r1 hv
        have hvb := ihv _ _ _ hv
        split at h
        · rename_i r3 heq1
          have hs1 := skipWs_le r1
          rw [heq1] at hs1
          simp only [List.length_cons] at hs1
          split at h
          · rename_i vs' r4 he
            have heb := ihe _ _ _ he
            have hs2 := skipWs_le r3
            simp only [Option.some.injEq, Prod.mk.injEq] at h
            obtain ⟨hvs, hr⟩ := h
            subst hvs
            subst hr
            simp only [sizeList, List.length_cons]
            omega
          · exact absurd h (by simp)
        · rename_i r3 heq1
          have hs1 := skipWs_le r1
          rw [heq1] at hs1
          simp only [List.length_cons] at hs1
          simp only [Option.some.injEq, Prod.mk.injEq] at h
          obtain ⟨hvs, hr⟩ := h
          subst hvs
          subst hr
          simp only [sizeList, List.length_cons]
          omega
        · exact absurd h (by simp)

/-- A successfully parsed value is no larger than the string it came
from: the decreasing measure behind the recursion of
`recursive_json_clean`. -/
theorem pyJsonLoads_size {s : String} {v : Value}
    (h : pyJsonLoads s = some v) : v.size ≤ s.length := by
  unfold pyJsonLoads at h
  split at h
  · rename_i w rest heq
    split at h
    · simp only [Option.some.injEq] at h
      subst h
      have hb := (parseF_size (2 * s.data.length + 8)).1 _ _ _ heq
      have hs := skipWs_le s.data
      have hl : s.length = s.data.length := rfl
      omega
    · exact absurd h (by simp)
  · exact absurd h (by simp)

/-! ### `recursive_json_clean` -/

mutual

/-- `recursive_json_clean` from `agent_display.py`: dicts and lists are
rebuilt with cleaned values; a string that looks like a JSON object or
array is parsed and the parse result recursively cleaned, with parse
failures returning the string unchanged; every other value is returned
as is. -/
def recursive_json_clean : Value → Value
  | .vdict kvs => .vdict (cleanMembers kvs)
  | .vlist vs => .vlist (cleanList vs)
  | .vstr s =>
    if looksLikeJson s then
      match hp : pyJsonLoads s with
      | some parsed => recursive_json_clean parsed
      | none => .vstr s
    else .vstr s
  | .vint n => .vint n
  | .vfloat f => .vfloat f
  | .vbool b => .vbool b
  | .vnull => .vnull
termination_by v => 2 * v.size + 1
decreasing_by
  · simp only [Value.size]
    omega
  · simp only [Value.size]
    omega
  · have := pyJsonLoads_size hp
    simp only [Value.size]
    omega

/-- The dict comprehension `{k: recursive_json_clean(v) for k, v in
data.items()}`. -/
def cleanMembers : List (String × Value) → List (String × Value)
  | [] => []
  | (k, v) :: rest => (k, recursive_json_clean v) :: cleanMembers rest
termination_by kvs => 2 * sizeMembers kvs + 2
decreasing_by
  · simp only [sizeMembers]
    omega
  · simp only [sizeMembers]
    have := Value.size_pos v
    omega

/-- The list comprehension `[recursive_json_clean(item) for item in data]`. -/
def cleanList : List Value → List Value
  | [] => []
  | v :: rest => recursive_json_clean v :: cleanList rest
termination_by vs => 2 * sizeList vs + 2
decreasing_by
  · simp only [sizeList]
    omega
  · simp only [sizeList]
    have := Value.size_pos v
    omega

end

theorem clean_vdict (kvs : List (String × Value)) :
    recursive_json_clean (.vdict kvs) = .vdict (cleanMembers kvs) := by
  simp only [recursive_json_clean]

theorem clean_vlist (vs : List Value) :
    recursive_json_clean (.vlist vs) = .vlist (cleanList vs) := by
  simp only [recursive_json_clean]

theorem clean_vstr_parsed {s : String} {v : Value} (h1 : looksLikeJson s = true)
    (h2 : pyJsonLoads s = some v) :
    recursive_json_clean (.vstr s) = recursive_json_clean v := by
  simp only [recursive_json_clean, h1, if_true]
  split
  · rename_i parsed hp
    rw [hp] at h2
    simp only [Option.some.injEq] at h2
    subst h2
    rfl
  · rename_i hp
    rw [hp] at h2
    exact Option.noConfusion h2

theorem clean_vstr_failed {s : String} (h1 : looksLikeJson s = true)
    (h2 : pyJsonLoads s = none) :
    recursive_json_clean (.vstr s) = .vstr s := by
  simp only [recursive_json_clean, h1, if_true]
  split
  · rename_i parsed hp
    rw [hp] at h2
    exact Option.noConfusion h2
  · rfl

theorem clean_vstr_plain {s : String} (h : looksLikeJson s = false) :
    recursive_json_clean (.vstr s) = .vstr s := by
  simp only [recursive_json_clean, h, Bool.false_eq_true, if_false]

theorem clean_scalar :
    (∀ n, recursive_json_clean (.vint n) = .vint n) ∧
    (∀ f, recursive_json_clean (.vfloat f) = .vfloat f) ∧
    (∀ b, recursive_json_clean (.vbool b) = .vbool b) ∧
    recursive_json_clean .vnull = .vnull := by
  refine ⟨?_, ?_, ?_, ?_⟩ <;> intros <;> simp only [recursive_json_clean]

theorem cleanMembers_eq_map (kvs : List (String × Value)) :
    cleanMembers kvs = kvs.map (fun kv => (kv.1, recursive_json_clean kv.2)) := by
  induction kvs with
  | nil => simp only [cleanMembers, List.map_nil]
  | cons hd tl ih =>
    obtain ⟨k, v⟩ := hd
    simp only [cleanMembers, List.map_cons, ih]

theorem cleanList_eq_map (vs : List Value) :
    cleanList vs = vs.map recursive_json_clean := by
  induction vs with
  | nil => simp only [cleanList, List.map_nil]
  | cons hd tl ih =>
    simp only [cleanList, List.map_cons, ih]

/-- A fuel-bounded interpreter of `recursive_json_clean`'s recursion: it
returns `none` when the recursion has not bottomed out within the given
depth.  `cleanF_fuel_size` below shows that depth `size v` always
suffices, which is the termination argument for the Python function. -/
def cleanF : Nat → Value → Option Value
  | 0, _ => none
  | n + 1, v =>
    match v with
    | .vdict kvs =>
      (kvs.mapM (fun kv => (cleanF n kv.2).map (fun cv => (kv.1, cv)))).map .vdict
    | .vlist vs => (vs.mapM (cleanF n)).map .vlist
    | .vstr s =>
      if looksLikeJson s then
        match pyJsonLoads s with
        | some parsed => cleanF n parsed
        | none => some (.vstr s)
      else some (.vstr s)
    | x => some x

theorem mapM_opt_mono {α β : Type} {f g : α → Option β}
    (hfg : ∀ a b, f a = some b → g a = some b) :
    ∀ {l : List α} {bs : List β}, l.mapM f = some bs → l.mapM g = some bs := by
  intro l
  induction l with
  | nil => intro bs h; simpa using h
  | cons a t ih =>
    intro bs h
    rw [List.mapM_cons] at h ⊢
    rcases hfa : f a with _ | b <;> rw [hfa] at h
    · simp at h
    · rcases hmt : t.mapM f with _ | bs' <;> rw [hmt] at h
      · simp at h
      · rw [hfg a b hfa, ih hmt]
        simpa using h

theorem cleanF_mono :
    ∀ {n m : Nat} {v : Value} {y : Value},
      cleanF n v = some y → n ≤ m → cleanF m v = some y := by
  intro n
  induction n with
  | zero => intro m v y h _; exact Option.noConfusion h
  | succ n ih =>
    intro m v y h hnm
    rcases m with _ | m
    · omega
    have hnm' : n ≤ m := by omega
    cases v with
    | vdict kvs =>
      simp only [cleanF] at h ⊢
      rcases Option.map_eq_some'.mp h with ⟨rs, hrs, hy⟩
      subst hy
      rw [mapM_opt_mono ?_ hrs]
      · rfl
      · intro kv cv hkv
        rcases Option.map_eq_some'.mp hkv with ⟨cv', hcv', hcveq⟩
        subst hcveq
        rw [ih hcv' hnm']
        rfl
    | vlist vs =>
      simp only [cleanF] at h ⊢
      rcases Option.map_eq_some'.mp h with ⟨rs, hrs, hy⟩
      subst hy
      rw [mapM_opt_mono (fun a b hab => ih hab hnm') hrs]
      rfl
    | vstr s =>
      simp only [cleanF] at h ⊢
      split at h
      · rename_i hl
        rw [if_pos hl]
        split at h
        · rename_i parsed hp
          exact ih h hnm'
        · rename_i hp
          exact h
      · rename_i hl
        rw [if_neg hl]
        exact h
    | vint k => simpa [cleanF] using h
    | vfloat f => simpa [cleanF] using h
    | vbool b => simpa [cleanF] using h
    | vnull => simpa [cleanF] using h

theorem mapM_cleanF_members {f : Nat} :
    ∀ kvs : List (String × Value),
      (∀ kv ∈ kvs, cleanF f kv.2 = some (recursive_json_clean kv.2)) →
      kvs.mapM (fun kv => (cleanF f kv.2).map (fun cv => (kv.1, cv))) =
        some (cleanMembers kvs) := by
  intro kvs
  induction kvs with
  | nil => intro _; simp only [cleanMembers]; rfl
  | cons hd tl ih =>
    intro h
    rw [List.mapM_cons]
    rw [h hd (by simp), ih (fun kv hkv => h kv (by simp [hkv]))]
    obtain ⟨k, v⟩ := hd
    simp [cleanMembers]

theorem mapM_cleanF_list {f : Nat} :
    ∀ vs : List Value,
      (∀ v ∈ vs, cleanF f v = some (recursive_json_clean v)) →
      vs.mapM (cleanF f) = some (cleanList vs) := by
  intro vs
  induction vs with
  | nil => intro _; simp only [cleanList]; rfl
  | cons hd tl ih =>
    intro h
    rw [List.mapM_cons]
    rw [h hd (by simp), ih (fun v hv => h v (by simp [hv]))]
    simp [cleanList]

theorem cleanF_sound :
    ∀ (N : Nat) (v : Value), v.size ≤ N →
      cleanF v.size v = some (recursive_json_clean v) := by
  intro N
  induction N with
  | zero => intro v hv; have := Value.size_pos v; omega
  | succ N ih =>
    intro v hv
    cases v with
    | vdict kvs =>
      have hsz : Value.size (.vdict kvs) = sizeMembers kvs + 1 := by
        simp [Value.size]; omega
      rw [hsz, clean_vdict]
      simp only [cleanF]
      rw [mapM_cleanF_members kvs ?_]
      · rfl
      · intro kv hkv
        have h1 : kv.2.size ≤ sizeMembers kvs := sizeMembers_mem hkv
        have h2 : sizeMembers kvs ≤ N := by
          simp only [Value.size] at hv
          omega
        exact cleanF_mono (ih kv.2 (by omega)) h1
    | vlist vs =>
      have hsz : Value.size (.vlist vs) = sizeList vs + 1 := by
        simp [Value.size]; omega
      rw [hsz, clean_vlist]
      simp only [cleanF]
      rw [mapM_cleanF_list vs ?_]
      · rfl
      · intro v hv'
        have h1 : v.size ≤ sizeList vs := sizeList_mem hv'
        have h2 : sizeList vs ≤ N := by
          simp only [Value.size] at hv
          omega
        exact cleanF_mono (ih v (by omega)) h1
    | vstr s =>
      have hsz : Value.size (.vstr s) = s.length + 1 := rfl
      rw [hsz]
      simp only [cleanF]
      rcases hl : looksLikeJson s with _ | _
      · rw [if_neg (by simp), clean_vstr_plain hl]
      · rw [if_pos rfl]
        rcases hp : pyJsonLoads s with _ | parsed
        · rw [clean_vstr_failed hl hp]
        · rw [clean_vstr_parsed hl hp]
          have h1 : parsed.size ≤ s.length := pyJsonLoads_size hp
          have h2 : s.length ≤ N := by
            simp only [Value.size] at hv
            omega
          exact cleanF_mono (ih parsed (by omega)) h1
    | vint k => simp [cleanF, Value.size, clean_scalar.1]
    | vfloat f => simp [cleanF, Value.size, clean_scalar.2.1]
    | vbool b => simp [cleanF, Value.size, clean_scalar.2.2.1]
    | vnull => simp [cleanF, Value.size, clean_scalar.2.2.2]

theorem cleanMembers_idem_of (N : Nat)
    (ih : ∀ v : Value, v.size ≤ N →
      recursive_json_clean (recursive_json_clean v) = recursive_json_clean v) :
    ∀ kvs : List (String × Value), sizeMembers kvs ≤ N →
      cleanMembers (cleanMembers kvs) = cleanMembers kvs := by
  intro kvs
  induction kvs with
  | nil => intro _; simp only [cleanMembers]
  | cons hd tl ihl =>
    intro hb
    obtain ⟨k, v⟩ := hd
    simp only [sizeMembers] at hb
    have hv := Value.size_pos v
    simp only [cleanMembers]
    rw [ih v (by omega), ihl (by omega)]

theorem cleanList_idem_of (N : Nat)
    (ih : ∀ v : Value, v.size ≤ N →
      recursive_json_clean (recursive_json_clean v) = recursive_json_clean v) :
    ∀ vs : List Value, sizeList vs ≤ N →
      cleanList (cleanList vs) = cleanList vs := by
  intro vs
  induction vs with
  | nil => intro _; simp only [cleanList]
  | cons hd tl ihl =>
    intro hb
    simp only [sizeList] at hb
    have hv := Value.size_pos hd
    simp only [cleanList]
    rw [ih hd (by omega), ihl (by omega)]

theorem clean_idem_bounded :
    ∀ (N : Nat) (v : Value), v.size ≤ N →
      recursive_json_clean (recursive_json_clean v) = recursive_json_clean v := by
  intro N
  induction N with
  | zero => intro v hv; have := Value.size_pos v; omega
  | succ N ih =>
    intro v hv
    cases v with
    | vdict kvs =>
      simp only [Value.size] at hv
      rw [clean_vdict, clean_vdict]
      rw [cleanMembers_idem_of N ih kvs (by omega)]
    | vlist vs =>
      simp only [Value.size] at hv
      rw [clean_vlist, clean_vlist]
      rw [cleanList_idem_of N ih vs (by omega)]
    | vstr s =>
      simp only [Value.size] at hv
      rcases hl : looksLikeJson s with _ | _
      · rw [clean_vstr_plain hl, clean_vstr_plain hl]
      · rcases hp : pyJsonLoads s with _ | parsed
        · rw [clean_vstr_failed hl hp, clean_vstr_failed hl hp]
        · rw [clean_vstr_parsed hl hp]
          have h1 : parsed.size ≤ s.length := pyJsonLoads_size hp
          exact ih parsed (by omega)
    | vint k => rw [clean_scalar.1, clean_scalar.1]
    | vfloat f => rw [clean_scalar.2.1, clean_scalar.2.1]
    | vbool b => rw [clean_scalar.2.2.1, clean_scalar.2.2.1]
    | vnull => rw [clean_scalar.2.2.2, clean_scalar.2.2.2]

/-! ### The trace renderer

Console output is modelled as a list of render events; the payload of an
event records the data that the corresponding `rich` object is built
from.  A branch of the Python code that reads a missing attribute of a
message object (an `AttributeError`) is modelled as `Except.error ()`;
`getattr`/`dict.get` lookups with defaults never error.  `json.dumps`
over these values always succeeds, so `_render_json_or_text` has no
failure path. -/

/-- Result of `_render_json_or_text`: either highlighted JSON built from
`json.dumps(clean_data, indent = 2)` or the plain `str(clean_data)`. -/
inductive Rendered where
  | jsonHighlight (v : Value)
  | plainText (v : Value)

/-- What a `print_input` panel interpolates: a value, or the
`json.dumps(data, indent = 2)` fallback text of a dict. -/
inductive PanelContent where
  | val (v : Value)
  | dumped (v : Value)

/-- The shape `print_final_answer` renders: Markdown for a string,
`JSON.from_data` for a dict, `str(content)` otherwise (including a
message object without a `content` attribute). -/
inductive FAContent where
  | markdown (s : String)
  | jsonData (kvs : List (String × Value))
  | plainOther

/-- `call.get(...)` entries collected from a message's `tool_calls`. -/
structure ToolCall where
  name : Option String := none
  args : Option Value := none
  id : Option String := none

/-- A message object; `none` in a field models the attribute being
absent, so that reading it raises `AttributeError`.  `tool_calls = some
[]` models a present but empty (falsy) list. -/
structure Msg where
  tool_calls : Option (List ToolCall) := none
  type : Option String := none
  content : Option Value := none
  tool_call_id : Option String := none
  name : Option String := none

/-- An action of a legacy `intermediate_steps` pair; all three fields are
read with `getattr(..., default)`, so absence never raises. -/
structure AgentAction where
  tool : Option String := none
  tool_input : Option Value := none
  log : Option String := none

/-- One legacy step: the pair `(action, observation)`. -/
structure Step where
  action : AgentAction
  observation : Value

/-- The response record: a mapping with four optional keys. -/
structure Response where
  input : Option Value := none
  intermediate_steps : Option (List Step) := none
  messages : Option (List Msg) := none
  output : Option Value := none

/-- One console event of the renderer. -/
inductive ROut where
  | header (title : String)
  | inputPanel (c : PanelContent)
  | noHistory
  | stepsHeader
  | stepTree (index : Nat) (tool : String) (input : Rendered)
      (log : Option String) (obs : Rendered)
  | msgHeader
  | invokeTree (name : Option String) (id : Option String) (args : Rendered)
  | resultTree (id : String) (output : Rendered)
  | finalAnswer (c : FAContent)
  | rawDump

/-- Python truthiness of a value.  A float lexeme is falsy exactly when
its numeric value is zero: no nonzero digit and not one of the
`NaN`/`Infinity` constants. -/
def pyTruthy : Value → Bool
  | .vnull => false
  | .vbool b => b
  | .vint n => n != 0
  | .vfloat f => f.data.any (fun c => '1' ≤ c && c ≤ '9') || f.data.contains 'N'
      || f.data.contains 'I'
  | .vstr s => !s.data.isEmpty
  | .vlist vs => !vs.isEmpty
  | .vdict kvs => !kvs.isEmpty

/-- Python `dict.get`: the rightmost binding wins, matching the state a
real `dict` would have after duplicate inserts. -/
def pyDictGet (kvs : List (String × Value)) (k : String) : Option Value :=
  (kvs.reverse.find? (fun kv => kv.1 == k)).map (fun kv => kv.2)

/-- `_render_json_or_text`: clean the data, render dicts and lists as
highlighted JSON, anything else as `str(clean_data)`. -/
def render_json_or_text (data : Value) : Rendered :=
  let clean_data := recursive_json_clean data
  match clean_data with
  | .vdict _ => .jsonHighlight clean_data
  | .vlist _ => .jsonHighlight clean_data
  | _ => .plainText clean_data

/-- The content a `print_input` panel interpolates: for a dict, the
first truthy of `get("input")`, `get("query")` and the `json.dumps`
fallback; otherwise the value itself. -/
def inputPanelContent (input_data : Value) : PanelContent :=
  match input_data with
  | .vdict kvs =>
    let a := (pyDictGet kvs "input").getD .vnull
    if pyTruthy a then .val a
    else
      let b := (pyDictGet kvs "query").getD .vnull
      if pyTruthy b then .val b
      else .dumped input_data
  | _ => .val input_data

/-- `print_input` prints exactly one panel. -/
def print_input (input_data : Value) : ROut :=
  .inputPanel (inputPanelContent input_data)

/-- Substring test (`needle in hay` for Python strings). -/
def pySubstr (needle : List Char) : List Char → Bool
  | [] => needle.isEmpty
  | c :: t => needle.isPrefixOf (c :: t) || pySubstr needle t

def pyContains (hay needle : String) : Bool := pySubstr needle.data hay.data

/-- `log_content.split('\n')[0] if '\n' in log_content else log_content`. -/
def firstLine (log_content : String) : String :=
  if log_content.data.contains '\n' then
    String.mk (log_content.data.takeWhile (fun c => c != '\n'))
  else log_content

/-- The optional log line of a step tree: shown only when the log is a
truthy string whose first line does not mention the tool name. -/
def stepLog (tool_name : String) (action : AgentAction) : Option String :=
  let log_content := action.log.getD ""
  if log_content.data.isEmpty then none
  else
    let clean_log := firstLine log_content
    if pyContains clean_log tool_name then none else some clean_log

/-- `print_intermediate_steps`: nothing for an empty list, otherwise a
header followed by one tree per step. -/
def print_intermediate_steps (intermediate_steps : List Step) : List ROut :=
  if intermediate_steps.isEmpty then []
  else
    .stepsHeader ::
      intermediate_steps.enum.map (fun p =>
        let tool_name := p.2.action.tool.getD "Unknown Tool"
        .stepTree (p.1 + 1) tool_name
          (render_json_or_text (p.2.action.tool_input.getD (.vstr "")))
          (stepLog tool_name p.2.action)
          (render_json_or_text p.2.observation))

/-- An entry of `tool_sequence` in `print_message_history`. -/
inductive SeqItem where
  | call (name : Option String) (args : Option Value) (id : Option String)
  | result (content : Value) (id : String) (name : String)

/-- The `elif msg.type == "tool"` arm: reading `type` (and, for a tool
message, `content`, `tool_call_id` and `name`) raises when absent. -/
def msgResultCase (msg : Msg) : Except Unit (List SeqItem) :=
  match msg.type with
  | none => .error ()
  | some t =>
    if t = "tool" then
      match msg.content, msg.tool_call_id, msg.name with
      | some c, some i, some n => .ok [.result c i n]
      | _, _, _ => .error ()
    else .ok []

/-- One message's contribution to `tool_sequence`: a truthy `tool_calls`
yields its calls, otherwise the tool-result arm is consulted. -/
def msgToSeq (msg : Msg) : Except Unit (List SeqItem) :=
  match msg.tool_calls with
  | some calls =>
    if calls.isEmpty then msgResultCase msg
    else .ok (calls.map (fun c => .call c.name c.args c.id))
  | none => msgResultCase msg

def seqOfMessages : List Msg → Except Unit (List SeqItem)
  | [] => .ok []
  | m :: rest =>
    match msgToSeq m, seqOfMessages rest with
    | .ok items, .ok restItems => .ok (items ++ restItems)
    | .error e, _ => .error e
    | _, .error e => .error e

/-- The tree printed for one `tool_sequence` item. -/
def seqItemOut : SeqItem → List ROut
  | .call n a i => [.invokeTree n i (render_json_or_text (a.getD .vnull))]
  | .result c i _ => [.resultTree i (render_json_or_text c)]

/-- `print_message_history`: nothing when no calls or results were
collected, otherwise a header then one tree per item, in order. -/
def print_message_history (messages : List Msg) : Except Unit (List ROut) :=
  match seqOfMessages messages with
  | .error e => .error e
  | .ok tool_sequence =>
    if tool_sequence.isEmpty then .ok []
    else .ok (.msgHeader :: tool_sequence.flatMap seqItemOut)

/-- The argument of `print_final_answer`: the `output` value or the last
message object. -/
inductive FAArg where
  | val (v : Value)
  | msgArg (m : Msg)

def contentRender : Value → FAContent
  | .vstr s => .markdown s
  | .vdict kvs => .jsonData kvs
  | _ => .plainOther

/-- `print_final_answer`: `content = output.content if hasattr(output,
'content') else output`, then Markdown / JSON / `str` by type. -/
def print_final_answer (output : FAArg) : ROut :=
  match output with
  | .msgArg m =>
    match m.content with
    | some c => .finalAnswer (contentRender c)
    | none => .finalAnswer .plainOther
  | .val v => .finalAnswer (contentRender v)

/-- Step 1 of `visualize_agent_response`: the input panel.  Reading
`response["messages"][0].content` raises when the first message has no
`content` attribute. -/
def inputSection (response : Response) : Except Unit (List ROut) :=
  match response.input with
  | some d => .ok [print_input d]
  | none =>
    match response.messages with
    | some (m :: _) =>
      match m.content with
      | some c => .ok [print_input c]
      | none => .error ()
    | _ => .ok []

/-- Step 2: `intermediate_steps` first, else `messages`, else the
placeholder line. -/
def historySection (response : Response) : Except Unit (List ROut) :=
  match response.intermediate_steps with
  | some steps => .ok (print_intermediate_steps steps)
  | none =>
    match response.messages with
    | some ms => print_message_history ms
    | none => .ok [.noHistory]

/-- Step 3: the `output` key, else the last message when one exists. -/
def outputSection (response : Response) : List ROut :=
  match response.output with
  | some o => [print_final_answer (.val o)]
  | none =>
    match response.messages with
    | some ms =>
      match ms.getLast? with
      | some m => [print_final_answer (.msgArg m)]
      | none => []
    | none => []

/-- `visualize_agent_response`: header, input, history, output and the
optional raw dump, in order.  An `AttributeError` anywhere surfaces as
`Except.error ()` for the whole call. -/
def visualize_agent_response (response : Response) (show_raw : Bool) :
    Except Unit (List ROut) :=
  match inputSection response, historySection response with
  | .ok inp, .ok hist =>
    .ok ([.header "LangChain v1.0 Agent Report"] ++ inp ++ hist ++
      outputSection response ++ (if show_raw then [.rawDump] else []))
  | .error e, _ => .error e
  | _, .error e => .error e

/-! ### Event classification -/

/-- Events of the legacy `print_intermediate_steps` branch. -/
def isStepEvent : ROut → Bool
  | .stepsHeader => true
  | .stepTree _ _ _ _ _ => true
  | _ => false

/-- Events of the `print_message_history` branch. -/
def isMsgEvent : ROut → Bool
  | .msgHeader => true
  | .invokeTree _ _ _ => true
  | .resultTree _ _ => true
  | _ => false

/-- Events of either tool-history branch. -/
def isHistoryEvent (e : ROut) : Bool := isStepEvent e || isMsgEvent e

def isInputPanelEvent : ROut → Bool
  | .inputPanel _ => true
  | _ => false

def isFinalAnswerEvent : ROut → Bool
  | .finalAnswer _ => true
  | _ => false

def isInvokeEvent : ROut → Bool
  | .invokeTree _ _ _ => true
  | _ => false

def isResultEvent : ROut → Bool
  | .resultTree _ _ => true
  | _ => false

theorem steps_filter (ss : List Step) :
    (print_intermediate_steps ss).filter isHistoryEvent =
      print_intermediate_steps ss ∧
    (print_intermediate_steps ss).filter isMsgEvent = [] := by
  unfold print_intermediate_steps
  split
  · simp
  · constructor
    · simp [List.filter_cons, List.filter_map, Function.comp_def,
        isHistoryEvent, isStepEvent, isMsgEvent]
    · simp [List.filter_cons, List.filter_map, Function.comp_def, isMsgEvent]

theorem seqItems_filter (l : List SeqItem) :
    ((l.flatMap seqItemOut).filter isHistoryEvent = l.flatMap seqItemOut) ∧
    ((l.flatMap seqItemOut).filter isStepEvent = []) := by
  induction l with
  | nil => simp
  | cons item t ih =>
    cases item <;>
      simp [seqItemOut, isHistoryEvent, isStepEvent, isMsgEvent, ih.1, ih.2]

theorem msg_history_filter {ms : List Msg} {h : List ROut}
    (hh : print_message_history ms = .ok h) :
    h.filter isHistoryEvent = h ∧ h.filter isStepEvent = [] := by
  unfold print_message_history at hh
  split at hh
  · exact Except.noConfusion hh
  · split at hh
    · simp only [Except.ok.injEq] at hh
      subst hh
      simp
    · simp only [Except.ok.injEq] at hh
      subst hh
      have := seqItems_filter (by assumption)
      constructor
      · simp [List.filter_cons, isHistoryEvent, isMsgEvent, isStepEvent, this.1]
      · simp [List.filter_cons, isStepEvent, this.2]

theorem inputSection_filter {r : Response} {inp : List ROut}
    (h : inputSection r = .ok inp) :
    inp.filter isHistoryEvent = [] := by
  unfold inputSection at h
  split at h
  · simp only [Except.ok.injEq] at h
    subst h
    simp [print_input, isHistoryEvent, isStepEvent, isMsgEvent]
  · split at h
    · split at h
      · simp only [Except.ok.injEq] at h
        subst h
        simp [print_input, isHistoryEvent, isStepEvent, isMsgEvent]
      · exact Except.noConfusion h
    · simp only [Except.ok.injEq] at h
      subst h
      simp

theorem outputSection_filter (r : Response) :
    (outputSection r).filter isHistoryEvent = [] := by
  unfold outputSection
  split
  · simp [print_final_answer, isHistoryEvent, isStepEvent, isMsgEvent]
  · split
    · split
      · simp only [print_final_answer]
        split <;> simp [isHistoryEvent, isStepEvent, isMsgEvent]
      · simp
    · simp

/-! ### Claims -/

/-- C1: `recursive_json_clean` normalizes dicts and lists element-wise,
and a string that (after trimming) starts and ends with matching curly or
square brackets is parsed as JSON with the parse result recursively
normalized (a parse failure keeps the string). -/
theorem claim1_clean_characterization :
    (∀ kvs : List (String × Value),
      recursive_json_clean (.vdict kvs) =
        .vdict (kvs.map (fun kv => (kv.1, recursive_json_clean kv.2)))) ∧
    (∀ vs : List Value,
      recursive_json_clean (.vlist vs) = .vlist (vs.map recursive_json_clean)) ∧
    (∀ s : String, looksLikeJson s = true →
      recursive_json_clean (.vstr s) =
        (match pyJsonLoads s with
         | some parsed => recursive_json_clean parsed
         | none => .vstr s)) := by
  refine ⟨?_, ?_, ?_⟩
  · intro kvs
    rw [clean_vdict, cleanMembers_eq_map]
  · intro vs
    rw [clean_vlist, cleanList_eq_map]
  · intro s hl
    rcases hp : pyJsonLoads s with _ | parsed
    · rw [clean_vstr_failed hl hp]
    · rw [clean_vstr_parsed hl hp]

theorem claim1_witness :
    looksLikeJson "[1, 2]" = true ∧
    recursive_json_clean (.vstr "[1, 2]") =
      (match pyJsonLoads "[1, 2]" with
       | some parsed => recursive_json_clean parsed
       | none => .vstr "[1, 2]") :=
  ⟨rfl, claim1_clean_characterization.2.2 "[1, 2]" rfl⟩

/-- C2: a string that looks like a JSON object or array but does not
parse is returned unchanged; in this total model the parse failure is
the `none` branch, so no exception escapes. -/
theorem claim2_parse_failure_keeps_string :
    ∀ s : String, looksLikeJson s = true → pyJsonLoads s = none →
      recursive_json_clean (.vstr s) = .vstr s :=
  fun _ h1 h2 => clean_vstr_failed h1 h2

theorem claim2_witness :
    looksLikeJson "[1,]" = true ∧ pyJsonLoads "[1,]" = none ∧
    recursive_json_clean (.vstr "[1,]") = .vstr "[1,]" :=
  ⟨rfl, rfl, claim2_parse_failure_keeps_string "[1,]" rfl rfl⟩

/-- C3: `recursive_json_clean` is idempotent. -/
theorem claim3_clean_idempotent :
    ∀ v : Value,
      recursive_json_clean (recursive_json_clean v) = recursive_json_clean v :=
  fun v => clean_idem_bounded v.size v le_rfl

/-- C5: the recursion of `recursive_json_clean` terminates on every
finite tree: the fuel-bounded interpreter `cleanF` bottoms out within
`size v` steps on every input, even when parsing a string yields a
structure that contains further JSON-looking strings. -/
theorem claim5_clean_terminates :
    ∀ v : Value, cleanF v.size v = some (recursive_json_clean v) :=
  fun v => cleanF_sound v.size v le_rfl

/-- C9: a string that does not look like JSON (after stripping it does
not start and end with matching curly or square brackets) is returned
unchanged. -/
theorem claim9_non_json_string_unchanged :
    ∀ s : String, looksLikeJson s = false →
      recursive_json_clean (.vstr s) = .vstr s :=
  fun _ h => clean_vstr_plain h

theorem claim9_witness :
    looksLikeJson "hello" = false ∧
    recursive_json_clean (.vstr "hello") = .vstr "hello" :=
  ⟨rfl, claim9_non_json_string_unchanged "hello" rfl⟩

theorem filter_sub {p q : ROut → Bool} (himp : ∀ e, q e = true → p e = true) :
    ∀ {l : List ROut}, l.filter p = [] → l.filter q = [] := by
  intro l
  induction l with
  | nil => simp
  | cons a t ih =>
    intro h
    rw [List.filter_cons] at h ⊢
    split at h
    · exact absurd h (by simp)
    · rename_i hpa
      split
      · rename_i hqa
        exact absurd (himp a hqa) (by simpa using hpa)
      · exact ih h

theorem msg_imp_history : ∀ e, isMsgEvent e = true → isHistoryEvent e = true := by
  intro e he
  simp [isHistoryEvent, he]

theorem step_imp_history : ∀ e, isStepEvent e = true → isHistoryEvent e = true := by
  intro e he
  simp [isHistoryEvent, he]

/-- C6: on a successful render exactly one history branch is printed:
with `intermediate_steps` present the history events are exactly the
legacy step trees and no message-derived event appears (even when
`messages` is also present); without it, and with `messages` present,
the history events are exactly the message-derived sequence and no
legacy step event appears. -/
theorem claim6_history_branch_exclusive :
    ∀ (r : Response) (b : Bool) (out : List ROut),
      visualize_agent_response r b = .ok out →
      ((∀ ss, r.intermediate_steps = some ss →
          out.filter isHistoryEvent = print_intermediate_steps ss ∧
          out.filter isMsgEvent = []) ∧
        (r.intermediate_steps = none → ∀ ms, r.messages = some ms →
          ∃ hist, print_message_history ms = .ok hist ∧
            out.filter isHistoryEvent = hist ∧ out.filter isStepEvent = [])) := by
  intro r b out h
  unfold visualize_agent_response at h
  split at h
  · rename_i inp hist heqi heqh
    simp only [Except.ok.injEq] at h
    subst h
    have hinp := inputSection_filter heqi
    have houtf := outputSection_filter r
    have hraw : (if b = true then [ROut.rawDump] else []).filter isHistoryEvent = [] := by
      cases b <;> simp [isHistoryEvent, isStepEvent, isMsgEvent]
    constructor
    · intro ss hss
      have hh : hist = print_intermediate_steps ss := by
        unfold historySection at heqh
        rw [hss] at heqh
        simp only [Except.ok.injEq] at heqh
        exact heqh.symm
      subst hh
      constructor
      · simp only [List.filter_append]
        rw [hinp, (steps_filter ss).1, houtf, hraw]
        simp [isHistoryEvent, isStepEvent, isMsgEvent]
      · simp only [List.filter_append]
        rw [(steps_filter ss).2]
        rw [filter_sub msg_imp_history hinp, filter_sub msg_imp_history houtf,
          filter_sub msg_imp_history hraw]
        simp [isMsgEvent]
    · intro hnone ms hms
      have hh : print_message_history ms = .ok hist := by
        unfold historySection at heqh
        rw [hnone, hms] at heqh
        exact heqh
      have hmf := msg_history_filter hh
      refine ⟨hist, hh, ?_, ?_⟩
      · simp only [List.filter_append]
        rw [hinp, hmf.1, houtf, hraw]
        simp [isHistoryEvent, isStepEvent, isMsgEvent]
      · simp only [List.filter_append]
        rw [hmf.2]
        rw [filter_sub step_imp_history hinp, filter_sub step_imp_history houtf,
          filter_sub step_imp_history hraw]
        simp [isStepEvent]
  · exact Except.noConfusion h
  · exact Except.noConfusion h

/-- A record carrying both `intermediate_steps` and `messages`. -/
def c6record : Response :=
  { input := some (.vstr "q"),
    intermediate_steps := some [{ action := { tool := some "t0" }, observation := .vint 2 }],
    messages := some [{ type := some "ai", content := some (.vstr "x") }] }

theorem claim6_witness :
    ∃ out, visualize_agent_response c6record false = .ok out ∧
      out.filter isMsgEvent = [] := by
  refine ⟨_, rfl, ?_⟩
  exact ((claim6_history_branch_exclusive c6record false _ rfl).1 _ rfl).2

/-- C7: a record whose only key is `input` renders an input panel and no
tool-history event (only the placeholder line besides header and the
optional raw dump). -/
theorem claim7_input_only_record :
    ∀ (v : Value) (b : Bool), ∃ out,
      visualize_agent_response { input := some v } b = .ok out ∧
      out.countP isInputPanelEvent = 1 ∧
      out.filter isHistoryEvent = [] := by
  intro v b
  refine ⟨_, rfl, ?_, ?_⟩ <;>
    cases b <;>
      simp [print_input, outputSection, List.countP_cons, isInputPanelEvent,
        isHistoryEvent, isStepEvent, isMsgEvent]

/-- C8: one message with a single tool call followed by the matching
tool result renders exactly one Invoke tree and then one Result tree. -/
theorem claim8_one_call_one_result :
    ∀ (m1 m2 : Msg) (c : ToolCall) (content : Value) (cid nm : String),
      m1.tool_calls = some [c] →
      m2.tool_calls = none →
      m2.type = some "tool" →
      m2.content = some content →
      m2.tool_call_id = some cid →
      m2.name = some nm →
      c.id = some cid →
      ∃ out, print_message_history [m1, m2] = .ok out ∧
        out = [.msgHeader,
          .invokeTree c.name (some cid) (render_json_or_text (c.args.getD .vnull)),
          .resultTree cid (render_json_or_text content)] ∧
        out.countP isInvokeEvent = 1 ∧ out.countP isResultEvent = 1 := by
  intro m1 m2 c content cid nm h1 h2 h3 h4 h5 h6 h7
  refine ⟨_, ?_, rfl, rfl, rfl⟩
  simp [print_message_history, seqOfMessages, msgToSeq, msgResultCase,
    h1, h2, h3, h4, h5, h6, h7, seqItemOut]

def c8call : ToolCall := { name := some "search", args := some (.vstr "q"), id := some "c1" }

def c8msg1 : Msg := { tool_calls := some [c8call] }

def c8msg2 : Msg :=
  { type := some "tool", content := some (.vstr "out"),
    tool_call_id := some "c1", name := some "search" }

theorem claim8_witness :
    ∃ out, print_message_history [c8msg1, c8msg2] = .ok out ∧
      out = [.msgHeader,
        .invokeTree (some "search") (some "c1")
          (render_json_or_text (.vstr "q")),
        .resultTree "c1" (render_json_or_text (.vstr "out"))] ∧
      out.countP isInvokeEvent = 1 ∧ out.countP isResultEvent = 1 :=
  claim8_one_call_one_result c8msg1 c8msg2 c8call (.vstr "out") "c1" "search"
    rfl rfl rfl rfl rfl rfl rfl

/-- C10: a record whose `messages` is an empty list, with no `input` and
no `output`, renders neither an input panel nor a final-answer panel:
only the header (and the optional raw dump) appear. -/
theorem claim10_empty_messages_prints_nothing :
    ∀ b : Bool, ∃ out,
      visualize_agent_response { messages := some [] } b = .ok out ∧
      out = [.header "LangChain v1.0 Agent Report"] ++
        (if b then [.rawDump] else []) ∧
      out.countP isInputPanelEvent = 0 ∧
      out.countP isFinalAnswerEvent = 0 := by
  intro b
  cases b <;> exact ⟨_, rfl, rfl, rfl, rfl⟩

/-- C4 counterexample: a record whose single message lacks every
attribute.  The input fallback reads `response["messages"][0].content`,
which raises `AttributeError`; the renderer is not defensive there. -/
theorem claim4_counterexample :
    visualize_agent_response { messages := some [{}] } false = .error () := rfl

/-- The message attributes the renderer reads without a default. -/
def goodMsg (m : Msg) : Bool :=
  m.type.isSome && m.content.isSome && m.tool_call_id.isSome && m.name.isSome

theorem msgToSeq_ok_of_good {m : Msg} (h : goodMsg m = true) :
    ∃ items, msgToSeq m = .ok items := by
  simp only [goodMsg, Bool.and_eq_true, Option.isSome_iff_exists] at h
  obtain ⟨⟨⟨⟨t, ht⟩, c, hc⟩, i, hi⟩, n, hn⟩ := h
  have hres : ∃ items, msgResultCase m = .ok items := by
    by_cases htool : t = "tool"
    · refine ⟨[SeqItem.result c i n], ?_⟩
      simp [msgResultCase, ht, htool, hc, hi, hn]
    · refine ⟨[], ?_⟩
      simp [msgResultCase, ht, htool]
  rcases htc : m.tool_calls with _ | calls
  · have heq : msgToSeq m = msgResultCase m := by simp [msgToSeq, htc]
    rw [heq]
    exact hres
  · by_cases he : calls.isEmpty
    · have heq : msgToSeq m = msgResultCase m := by simp [msgToSeq, htc, he]
      rw [heq]
      exact hres
    · have heq : msgToSeq m =
          .ok (calls.map (fun c => .call c.name c.args c.id)) := by
        simp [msgToSeq, htc, he]
      exact ⟨_, heq⟩

theorem seqOfMessages_ok_of_good :
    ∀ ms : List Msg, (∀ m ∈ ms, goodMsg m = true) →
      ∃ its, seqOfMessages ms = .ok its := by
  intro ms
  induction ms with
  | nil => intro _; exact ⟨[], rfl⟩
  | cons m rest ih =>
    intro h
    obtain ⟨items, hm⟩ := msgToSeq_ok_of_good (h m (by simp))
    obtain ⟨its, hrest⟩ := ih (fun x hx => h x (by simp [hx]))
    refine ⟨items ++ its, ?_⟩
    unfold seqOfMessages
    rw [hm, hrest]

theorem print_message_history_ok_of_good {ms : List Msg}
    (h : ∀ m ∈ ms, goodMsg m = true) :
    ∃ out, print_message_history ms = .ok out := by
  obtain ⟨its, hs⟩ := seqOfMessages_ok_of_good ms h
  by_cases he : its.isEmpty
  · exact ⟨[], by simp [print_message_history, hs, he]⟩
  · have heq : print_message_history ms =
        .ok (.msgHeader :: its.flatMap seqItemOut) := by
      simp [print_message_history, hs, he]
    exact ⟨_, heq⟩

theorem inputSection_ok_of_good {r : Response}
    (hgood : ∀ m ∈ r.messages.getD [], goodMsg m = true) :
    ∃ inp, inputSection r = .ok inp := by
  rcases hin : r.input with _ | d
  · rcases hms : r.messages with _ | ms
    · exact ⟨[], by simp [inputSection, hin, hms]⟩
    · rcases ms with _ | ⟨m, rest⟩
      · exact ⟨[], by simp [inputSection, hin, hms]⟩
      · have hm : goodMsg m = true := by
          apply hgood
          rw [hms]
          simp
        simp only [goodMsg, Bool.and_eq_true, Option.isSome_iff_exists] at hm
        obtain ⟨⟨⟨_, c, hc⟩, _⟩, _⟩ := hm
        exact ⟨[print_input c], by simp [inputSection, hin, hms, hc]⟩
  · exact ⟨[print_input d], by simp [inputSection, hin]⟩

theorem historySection_ok_of_good {r : Response}
    (hgood : ∀ m ∈ r.messages.getD [], goodMsg m = true) :
    ∃ hist, historySection r = .ok hist := by
  rcases hst : r.intermediate_steps with _ | steps
  · rcases hms : r.messages with _ | ms
    · exact ⟨[.noHistory], by simp [historySection, hst, hms]⟩
    · obtain ⟨out, hout⟩ := print_message_history_ok_of_good
        (fun m hm => hgood m (by rw [hms]; simpa using hm))
      exact ⟨out, by simp [historySection, hst, hms, hout]⟩
  · exact ⟨print_intermediate_steps steps, by simp [historySection, hst]⟩

/-- C4 amended: record-level key lookups and the legacy action fields
are read defensively, but message attributes are not; the renderer
raises no error provided every message (when the `messages` list is
consulted at all) carries `type`, `content`, `tool_call_id` and `name`
attributes. -/
theorem claim4_amended_defensive :
    ∀ (r : Response) (b : Bool),
      (∀ m ∈ r.messages.getD [], goodMsg m = true) →
      ∃ out, visualize_agent_response r b = .ok out := by
  intro r b hgood
  obtain ⟨inp, hinp⟩ := inputSection_ok_of_good hgood
  obtain ⟨hist, hhist⟩ := historySection_ok_of_good hgood
  refine ⟨[ROut.header "LangChain v1.0 Agent Report"] ++ inp ++ hist ++
    outputSection r ++ (if b then [.rawDump] else []), ?_⟩
  simp [visualize_agent_response, hinp, hhist]

def c4goodMsg : Msg :=
  { type := some "ai", content := some (.vstr "x"),
    tool_call_id := some "i", name := some "n" }

theorem claim4_amended_witness :
    ∃ out, visualize_agent_response { messages := some [c4goodMsg] } false = .ok out :=
  claim4_amended_defensive { messages := some [c4goodMsg] } false
    (by intro m hm; simp at hm; subst hm; rfl)
